import Mathlib

/-!
Verification of the backup endpoint (`components/backup/src/endpoint.rs`).

Byte strings are modelled as `List Nat` with the lexicographic order, matching
the ordering of Rust byte slices.  The per-node endpoint's pure control flow is
translated directly from the source; the storage engine, the SST writer, the
blob sink and the scanner are external collaborators and enter the model as
per-shard oracles.  Panics (`unwrap`, `assert!`) are modelled by `Except`.
-/

namespace Backup

abbrev Bytes := List Nat

/-- One peer of a region, as in `kvproto::metapb::Peer`. -/
structure Peer where
  store_id : Nat
  id : Nat
deriving DecidableEq, Repr

/-- Region epoch, as in `kvproto::metapb::RegionEpoch`. -/
structure RegionEpoch where
  version : Nat
  conf_ver : Nat
deriving DecidableEq, Repr

/-- Region descriptor, as in `kvproto::metapb::Region`.  `start_key` and
`end_key` are encoded keys; an empty `end_key` means plus-infinity and an empty
`start_key` means the very beginning of the key space. -/
structure Region where
  id : Nat
  region_epoch : RegionEpoch
  start_key : Bytes
  end_key : Bytes
  peers : List Peer
deriving DecidableEq, Repr

/-- Role of the local replica of a region, as in `raft::StateRole`. -/
inductive StateRole
  | Leader
  | Follower
deriving DecidableEq, Repr

/-- An entry of the region registry: a region together with the local role,
as yielded by `RegionInfoProvider::seek_region`. -/
structure RegionInfo where
  region : Region
  role : StateRole
deriving DecidableEq, Repr

/-! ## Key encoding

`Key::from_raw` applies the memcomparable byte encoding: the raw key is cut
into groups of 8 bytes; every full group is emitted followed by the marker
`0xFF`; the final group (of length `0..=7`) is padded with zeros to 8 bytes and
followed by the marker `0xFF - pad`.  `Key::into_raw` inverts this and fails on
malformed input. -/

/-- `Key::from_raw`: memcomparable encoding of a raw key. -/
def encodeBytes : Bytes → Bytes
  | a1 :: a2 :: a3 :: a4 :: a5 :: a6 :: a7 :: a8 :: rest =>
      a1 :: a2 :: a3 :: a4 :: a5 :: a6 :: a7 :: a8 :: 255 :: encodeBytes rest
  | k => k ++ List.replicate (8 - k.length) 0 ++ [255 - (8 - k.length)]

/-- `Key::into_raw`: decoding of a memcomparable-encoded key; `none` models a
decoding failure (the `unwrap` in the response loop would panic). -/
def decodeBytes : Bytes → Option Bytes
  | a1 :: a2 :: a3 :: a4 :: a5 :: a6 :: a7 :: a8 :: m :: rest =>
      if m = 255 then
        (decodeBytes rest).map
          (fun r => a1 :: a2 :: a3 :: a4 :: a5 :: a6 :: a7 :: a8 :: r)
      else if rest = [] then
        let pad := 255 - m
        let grp := [a1, a2, a3, a4, a5, a6, a7, a8]
        if 1 ≤ pad ∧ pad ≤ 8 ∧ grp.drop (8 - pad) = List.replicate pad 0 then
          some (grp.take (8 - pad))
        else none
      else none
  | _ => none

/-! ## The range-intersection walker (`Endpoint::seek_backup_range`) -/

/-- Ways the enumeration can panic: the emptiness assertion on line 157 of
`endpoint.rs`, the `find_peer(...).unwrap()` on line 158, and the
`into_raw().unwrap()` conversions in the response loop of
`handle_backup_task`. -/
inductive BackupPanic
  | assertEmptyRange
  | findPeerNone
  | intoRawFail
deriving DecidableEq, Repr

/-- A shard work item, as in `struct BackupRange` of `endpoint.rs`.  The two
keys are encoded; `none` stands for an unbounded side. -/
structure BackupRange where
  start_key : Option Bytes
  end_key : Option Bytes
  region : Region
  leader : Peer
deriving DecidableEq, Repr

/-- Modelled from the spec: `find_peer` of `tikv::raftstore::store::util`
(declared by the source but not under `src/`) returns the peer of `region`
located on the store `store_id`, spec section 4.2
(`leader=find_peer_on_this_store(region)`). -/
def find_peer (region : Region) (store_id : Nat) : Option Peer :=
  region.peers.find? (fun p => p.store_id == store_id)

/-- `fn key_from_region`: translate the empty-bytes sentinels of a region
descriptor into optional bounds. -/
def key_from_region (region : Region) : Option Bytes × Option Bytes :=
  ((if region.start_key = [] then none else some region.start_key),
   (if region.end_key = [] then none else some region.end_key))

/-- The break condition at the top of the loop of `seek_backup_range`:
the walk stops at the first region whose start key is at or past the
request's end key. -/
def reachedEnd (end_key : Option Bytes) (region : Region) : Bool :=
  match end_key with
  | some e => decide (e ≤ region.start_key)
  | none => false

/-- The computation of `ekey` in the loop of `seek_backup_range` (lines
135-146 of `endpoint.rs`): the smaller of the request's end and the region's
end, an empty region end meaning plus-infinity. -/
def clipEnd (end_key : Option Bytes) (region : Region) : Option Bytes :=
  if region.end_key = [] then end_key
  else match end_key with
    | none => (key_from_region region).2
    | some e =>
      if e < region.end_key then end_key else (key_from_region region).2

/-- The computation of `skey` in the loop of `seek_backup_range` (lines
147-156 of `endpoint.rs`): the larger of the request's start and the region's
start. -/
def clipStart (start_key : Option Bytes) (region : Region) : Option Bytes :=
  match start_key with
  | none => (key_from_region region).1
  | some s =>
    if s < region.start_key then (key_from_region region).1 else start_key

/-- The loop body of `seek_backup_range` (lines 121-167 of `endpoint.rs`),
iterating over the regions handed to the callback by the registry.  A panic
(the assertion or the `find_peer` unwrap) aborts the whole enumeration. -/
def seekLoop (store_id : Nat) (start_key end_key : Option Bytes) :
    List RegionInfo → Except BackupPanic (List BackupRange)
  | [] => .ok []
  | info :: rest =>
    let region := info.region
    if reachedEnd end_key region then .ok []
    else if info.role = StateRole.Leader then
      let ekey := clipEnd end_key region
      let skey := clipStart start_key region
      if skey = ekey ∧ ekey.isSome then .error .assertEmptyRange
      else
        match find_peer region store_id with
        | none => .error .findPeerNone
        | some leader =>
          match seekLoop store_id start_key end_key rest with
          | .error p => .error p
          | .ok l =>
            .ok ({ start_key := skey, end_key := ekey, region := region,
                   leader := leader } :: l)
    else seekLoop store_id start_key end_key rest

/-- Modelled from the spec: the region registry (`RegionInfoAccessor` /
`RegionCollector`, not part of this crate) invokes the seek callback with the
ordered iterator over local regions starting at the first region whose
`end_key` is greater than the seek key, an empty `end_key` meaning
plus-infinity (spec section 6, region registry contract). -/
def seek_region (from_key : Bytes) (registry : List RegionInfo) :
    List RegionInfo :=
  registry.dropWhile
    (fun info =>
      decide (info.region.end_key ≠ [] ∧ info.region.end_key ≤ from_key))

/-- `Endpoint::seek_backup_range`: enumerate the locally-led regions
overlapping the request range, clipping each one to the request. -/
def seek_backup_range (store_id : Nat) (registry : List RegionInfo)
    (start_key end_key : Option Bytes) : Except BackupPanic (List BackupRange) :=
  let start_key_ := start_key.elim ([] : Bytes) id
  seekLoop store_id start_key end_key (seek_region start_key_ registry)

/-! ## Spec-side description of the clipped shard set

These definitions follow the words of spec section 8, invariant 1, for the
refinement comparison with `seek_backup_range`. -/

/-- Follows the spec's words: maximum of two lower bounds, `none` standing for
minus-infinity. -/
def negMax : Option Bytes → Option Bytes → Option Bytes
  | none, b => b
  | some x, none => some x
  | some x, some y => some (max x y)

/-- Follows the spec's words: minimum of two upper bounds, `none` standing for
plus-infinity. -/
def posMin : Option Bytes → Option Bytes → Option Bytes
  | none, b => b
  | some x, none => some x
  | some x, some y => some (min x y)

/-- Follows the spec's words: a lower bound (`none` = minus-infinity) is
strictly below an upper bound (`none` = plus-infinity). -/
def boundLt (s e : Option Bytes) : Bool :=
  match s, e with
  | none, _ => true
  | some _, none => true
  | some a, some b => decide (a < b)

/-- Follows the spec's words (spec section 8, invariant 1): the set of clipped
ranges `(max(S, r.start), min(E, r.end))` over the locally-led regions with a
non-empty intersection with the request, in registry order. -/
def specClippedRanges (S E : Option Bytes) (registry : List RegionInfo) :
    List (Option Bytes × Option Bytes) :=
  (registry.filter
      (fun info =>
        decide (info.role = StateRole.Leader) &&
        boundLt (negMax S (key_from_region info.region).1)
          (posMin E (key_from_region info.region).2))).map
    (fun info =>
      (negMax S (key_from_region info.region).1,
       posMin E (key_from_region info.region).2))

/-! ## Well-formedness of requests and registries -/

/-- A region is well formed when it is non-empty: either unbounded above or
with its start key strictly below its end key. -/
abbrev regionWF (r : Region) : Prop :=
  r.end_key = [] ∨ r.start_key < r.end_key

/-- Registry order between two entries: the first one is bounded above and
ends at or before the second one begins. -/
abbrev regOrder (a b : RegionInfo) : Prop :=
  a.region.end_key ≠ [] ∧ a.region.end_key ≤ b.region.start_key

/-- A well-formed request range: a present end bound is a non-empty key, and
when both bounds are present the start is strictly below the end. -/
abbrev requestWF (S E : Option Bytes) : Prop :=
  (match E with
   | some e => e ≠ []
   | none => True) ∧
  (match S, E with
   | some s, some e => s < e
   | _, _ => True)

/-! ## Per-shard error taxonomy

The crate's `Error` type and its `From` conversions live outside `src/`
(`components/backup/src/errors.rs` is not part of the given sources), so they
are modelled from the spec's error table (spec section 7). -/

/-- An error returned by `Engine::snapshot`; spec section 7 classifies
snapshot-acquisition failures as region errors (not-leader, epoch-not-match,
region-not-found), carried here as an abstract code. -/
inductive EngineError
  | regionError (code : Nat)
deriving DecidableEq, Repr

/-- An error returned by the MVCC entry scanner; spec section 7 classifies
mid-scan failures as kv errors (most commonly a lock visible at the backup
timestamp), carried here as an abstract code. -/
inductive TxnError
  | kvError (code : Nat)
deriving DecidableEq, Repr

/-- The crate-level backup error: the `one_of` of the wire `Error` message
(spec section 6). -/
inductive BError
  | regionError (code : Nat)
  | kvError (code : Nat)
  | other (code : Nat)
deriving DecidableEq, Repr

/-- Modelled from the spec: the `From<EngineError>` conversion applied by
`e.into()` on the snapshot failure path surfaces the failure as
`response.error.region_error` (spec section 7, first row). -/
def engineErrorInto : EngineError → BError
  | .regionError code => .regionError code

/-- Modelled from the spec: the `From<TxnError>` conversion applied by
`e.into()` on the scan failure path surfaces the failure as
`response.error.kv_error` (spec section 7, second row). -/
def txnErrorInto : TxnError → BError
  | .kvError code => .kvError code

/-! ## The per-shard pipeline (`Endpoint::dispatch_backup_range`) -/

/-- A file descriptor as in `kvproto::backup::File`; only the fields the
response loop touches are carried, the rest is an abstract name. -/
structure File where
  name : Nat
  start_key : Bytes
  end_key : Bytes
  start_version : Nat
  end_version : Nat
deriving DecidableEq, Repr

/-- A single MVCC entry yielded by the scanner. -/
structure Entry where
  key : Bytes
  value : Bytes
deriving DecidableEq, Repr

/-- How the snapshot store and the entry scanner are configured for one shard,
recording the arguments of `SnapshotStore::new`, `entry_scanner` and
`EntryBatch::with_capacity`. -/
inductive IsolationLevel
  | Si
  | Rc
deriving DecidableEq, Repr

/-- The scan configuration assembled by the worker closure of
`dispatch_backup_range`. -/
structure ScanSetup where
  backup_ts : Nat
  isolation : IsolationLevel
  fill_cache : Bool
  lower : Option Bytes
  upper : Option Bytes
  batch_capacity : Nat
deriving DecidableEq, Repr

/-- The external collaborators of one shard's pipeline: the outcome of
snapshot acquisition, of `BackupWriter::new`, the successive results of
`scan_entries`, the per-call results of `writer.write`, the outcome of
`writer.save` and the scanner statistics. -/
structure ShardEnv where
  snapshot : Except EngineError Unit
  writer : Except BError Unit
  scans : List (Except TxnError (List Entry))
  writeRes : Nat → Except BError Unit
  save : Except BError (List File)
  stat : Nat

/-- The scan loop of the worker closure: repeatedly call `scan_entries`; stop
at the first empty batch (also when the scanner is exhausted), abort on a
scanner or writer error.  Returns the batches handed to the writer and the
error, if any, that aborted the shard. -/
def scanWriteLoop (writeRes : Nat → Except BError Unit) :
    Nat → List (Except TxnError (List Entry)) →
    List (List Entry) × Option BError
  | _, [] => ([], none)
  | _, (.error e) :: _ => ([], some (txnErrorInto e))
  | _, (.ok []) :: _ => ([], none)
  | i, (.ok b) :: rest =>
    match writeRes i with
    | .error e => ([], some e)
    | .ok _ =>
      let w := scanWriteLoop writeRes (i + 1) rest
      (b :: w.1, w.2)

/-- The observable outcome of `dispatch_backup_range` for one shard: the
result tuple sent on the result channel, the scan setup (present exactly when
a snapshot was obtained), and which effects took place. -/
structure DispatchResult where
  result : Except BError (List File × Nat)
  setup : Option ScanSetup
  writer_created : Bool
  batches_written : List (List Entry)
  save_called : Bool
deriving Repr

/-- `Endpoint::dispatch_backup_range`: obtain a snapshot for the shard's
region (a failure is sent back at once), then on a worker run the snapshot
scan bounded by the clipped keys, feed every non-empty batch to the SST
writer, save the files to the sink and send the result tuple. -/
def dispatch_backup_range (brange : BackupRange) (start_ts end_ts : Nat)
    (env : ShardEnv) : DispatchResult :=
  let _ := start_ts
  let backup_ts := end_ts
  match env.snapshot with
  | .error e =>
    { result := .error (engineErrorInto e), setup := none,
      writer_created := false, batches_written := [], save_called := false }
  | .ok _ =>
    let setup : ScanSetup :=
      { backup_ts := backup_ts, isolation := .Si, fill_cache := false,
        lower := brange.start_key, upper := brange.end_key,
        batch_capacity := 1024 }
    match env.writer with
    | .error e =>
      { result := .error e, setup := some setup, writer_created := false,
        batches_written := [], save_called := false }
    | .ok _ =>
      match scanWriteLoop env.writeRes 0 env.scans with
      | (written, some e) =>
        { result := .error e, setup := some setup, writer_created := true,
          batches_written := written, save_called := false }
      | (written, none) =>
        match env.save with
        | .error e =>
          { result := .error e, setup := some setup, writer_created := true,
            batches_written := written, save_called := true }
        | .ok files =>
          { result := .ok (files, env.stat), setup := some setup,
            writer_created := true, batches_written := written,
            save_called := true }

/-! ## The orchestrator (`Endpoint::handle_backup_task`, `Runnable::run`) -/

/-- A backup task, as in `struct Task` of `endpoint.rs` (the sink handle and
the response channel are left implicit). -/
structure Task where
  start_key : Bytes
  end_key : Bytes
  start_ts : Nat
  end_ts : Nat
deriving DecidableEq, Repr

/-- A response, as in `kvproto::backup::BackupResponse`. -/
structure BackupResponse where
  start_key : Bytes
  end_key : Bytes
  files : List File
  error : Option BError
deriving DecidableEq, Repr

/-- The `map_or_else(|| vec![], |k| k.into_raw().unwrap())` conversion of the
response loop: an absent bound becomes the empty byte string, a present bound
is decoded; `none` models the panic of the inner `unwrap`. -/
def rawOfBound : Option Bytes → Option Bytes
  | none => some []
  | some k => decodeBytes k

/-- One iteration of the response loop of `handle_backup_task`: turn a result
tuple into a `BackupResponse`, filling each file's key range and timestamps on
success and the error field on failure. -/
def mkResponse (task : Task) (brange : BackupRange)
    (res : Except BError (List File × Nat)) :
    Except BackupPanic BackupResponse :=
  match rawOfBound brange.start_key, rawOfBound brange.end_key with
  | some sk, some ek =>
    match res with
    | .ok (files, _) =>
      .ok { start_key := sk, end_key := ek,
            files := files.map
              (fun f =>
                { f with start_key := sk, end_key := ek,
                         start_version := task.start_ts,
                         end_version := task.end_ts }),
            error := none }
    | .error e => .ok { start_key := sk, end_key := ek, files := [], error := some e }
  | _, _ => .error .intoRawFail

/-- The dispatch loop of `handle_backup_task`: every enumerated shard is
handed to `dispatch_backup_range` (with both timestamp arguments set to the
task's `end_ts`, line 274 of `endpoint.rs`) together with its oracle, and
contributes exactly one result tuple. -/
def dispatchAll (task : Task) (envs : Nat → ShardEnv) :
    Nat → List BackupRange →
    List (BackupRange × Except BError (List File × Nat))
  | _, [] => []
  | i, brange :: rest =>
    (brange,
      (dispatch_backup_range brange task.end_ts task.end_ts (envs i)).result) ::
    dispatchAll task envs (i + 1) rest

/-- The response loop of `handle_backup_task` (lines 281-321 of
`endpoint.rs`): one response per received result tuple, in order. -/
def responsesOf (task : Task) :
    List (BackupRange × Except BError (List File × Nat)) →
    Except BackupPanic (List BackupResponse)
  | [] => .ok []
  | x :: rest =>
    match mkResponse task x.1 x.2 with
    | .error p => .error p
    | .ok r =>
      match responsesOf task rest with
      | .error p => .error p
      | .ok rs => .ok (r :: rs)

/-- `Endpoint::handle_backup_task`.  The request's raw bounds are encoded
(empty meaning unbounded), the shards are enumerated and dispatched, and one
response per result tuple is emitted.  The result channel delivers tuples in
work-completion order, modelled by the schedule `sched`: a list of shard
indices in the order the workers finish (a permutation of the indices for a
run in which every worker completes).  The response channel is taken to stay
open for the whole request. -/
def handle_backup_task (store_id : Nat) (registry : List RegionInfo)
    (task : Task) (envs : Nat → ShardEnv) (sched : List Nat) :
    Except BackupPanic (List BackupRange × List BackupResponse) :=
  let start_key := if task.start_key = [] then none
                   else some (encodeBytes task.start_key)
  let end_key := if task.end_key = [] then none
                 else some (encodeBytes task.end_key)
  match seek_backup_range store_id registry start_key end_key with
  | .error p => .error p
  | .ok branges =>
    let results := dispatchAll task envs 0 branges
    let ordered := sched.filterMap (fun i => results[i]?)
    (responsesOf task ordered).map (fun resps => (branges, resps))

/-- `Runnable::run`: a full backup (`start_ts == end_ts`) is handled; an
incremental request is logged and dropped, producing no responses and
dispatching no shard. -/
def run (store_id : Nat) (registry : List RegionInfo) (task : Task)
    (envs : Nat → ShardEnv) (sched : List Nat) :
    Except BackupPanic (List BackupRange × List BackupResponse) :=
  if task.start_ts = task.end_ts then
    handle_backup_task store_id registry task envs sched
  else .ok ([], [])

/-! ## Basic facts about the byte-string order -/

theorem bytes_le_nil {l : Bytes} (h : l ≤ []) : l = [] :=
  le_antisymm h List.nil_le

theorem bytes_not_lt_nil (l : Bytes) : ¬ l < [] := fun h =>
  absurd (lt_of_lt_of_le h List.nil_le) (lt_irrefl l)

/-- The key encoding round-trips: `into_raw` inverts `from_raw`. -/
theorem decode_encode (k : Bytes) : decodeBytes (encodeBytes k) = some k := by
  induction k using encodeBytes.induct with
  | case1 a1 a2 a3 a4 a5 a6 a7 a8 rest ih =>
    simp [encodeBytes, decodeBytes, ih]
  | case2 k h =>
    rcases k with _ | ⟨a1, _ | ⟨a2, _ | ⟨a3, _ | ⟨a4, _ | ⟨a5,
      _ | ⟨a6, _ | ⟨a7, _ | ⟨a8, t⟩⟩⟩⟩⟩⟩⟩⟩
    · simp [encodeBytes, decodeBytes]
    · simp [encodeBytes, decodeBytes]
    · simp [encodeBytes, decodeBytes]
    · simp [encodeBytes, decodeBytes]
    · simp [encodeBytes, decodeBytes]
    · simp [encodeBytes, decodeBytes]
    · simp [encodeBytes, decodeBytes]
    · simp [encodeBytes, decodeBytes]
    · exact absurd rfl (h a1 a2 a3 a4 a5 a6 a7 a8 t)

/-! ## The clipping computations agree with the spec's max / min -/

theorem clipStart_eq (S : Option Bytes) (r : Region) :
    clipStart S r = negMax S (key_from_region r).1 := by
  rcases S with _ | s
  · simp [clipStart, negMax]
  · by_cases hs : r.start_key = []
    · simp [clipStart, negMax, key_from_region, hs, bytes_not_lt_nil]
    · by_cases hlt : s < r.start_key
      · simp [clipStart, negMax, key_from_region, hs, hlt,
          max_eq_right (le_of_lt hlt)]
      · simp [clipStart, negMax, key_from_region, hs, hlt,
          max_eq_left (le_of_not_lt hlt)]

theorem clipEnd_eq (E : Option Bytes) (r : Region) :
    clipEnd E r = posMin E (key_from_region r).2 := by
  by_cases he : r.end_key = []
  · rcases E with _ | e <;> simp [clipEnd, posMin, key_from_region, he]
  · rcases E with _ | e
    · simp [clipEnd, posMin, key_from_region, he]
    · by_cases hlt : e < r.end_key
      · simp [clipEnd, posMin, key_from_region, he, hlt,
          min_eq_left (le_of_lt hlt)]
      · simp [clipEnd, posMin, key_from_region, he, hlt,
          min_eq_right (le_of_not_lt hlt)]

/-- A lower bound produced by `negMax` with a present region start is a
present key at or above that region start. -/
theorem negMax_some_start (S : Option Bytes) {ks : Bytes} (h : ks ≠ []) (r : Region)
    (hr : r.start_key = ks) :
    ∃ m, negMax S (key_from_region r).1 = some m ∧ ks ≤ m := by
  rcases S with _ | s
  · exact ⟨ks, by simp [negMax, key_from_region, hr, h], le_refl ks⟩
  · exact ⟨max s ks, by simp [negMax, key_from_region, hr, h], le_max_right s ks⟩

/-- An upper bound produced by `posMin` with a present request end is a
present key at or below that request end. -/
theorem posMin_some_end (e : Bytes) (y : Option Bytes) :
    ∃ n, posMin (some e) y = some n ∧ n ≤ e := by
  rcases y with _ | v
  · exact ⟨e, rfl, le_refl e⟩
  · exact ⟨min e v, rfl, min_le_left e v⟩

/-- A region whose start key is at or past the request's end bound never
contributes a clipped range: its spec-side lower bound meets its upper
bound. -/
theorem boundLt_false_of_le (E : Option Bytes) {e : Bytes} (hE : E = some e)
    (hene : e ≠ []) (S : Option Bytes) (r : Region) (hle : e ≤ r.start_key) :
    boundLt (negMax S (key_from_region r).1)
      (posMin E (key_from_region r).2) = false := by
  have hs : r.start_key ≠ [] := by
    intro h0
    exact hene (bytes_le_nil (h0 ▸ hle))
  obtain ⟨m, hm, hkm⟩ := negMax_some_start S hs r rfl
  subst hE
  obtain ⟨n, hn, hne⟩ := posMin_some_end e (key_from_region r).2
  rw [hm, hn]
  simp only [boundLt, decide_eq_false_iff_not]
  exact not_lt_of_le (le_trans hne (le_trans hle hkm))

theorem boundLt_true_of {s e : Option Bytes}
    (h : ∀ a b, s = some a → e = some b → a < b) : boundLt s e = true := by
  rcases s with _ | a <;> rcases e with _ | b <;>
    simp only [boundLt, decide_eq_true_eq]
  exact h a b rfl rfl

theorem key_from_region_fst_some {r : Region} {v : Bytes}
    (h : (key_from_region r).1 = some v) : v = r.start_key := by
  unfold key_from_region at h
  by_cases hs : r.start_key = [] <;> simp [hs] at h
  exact h.symm

theorem key_from_region_snd_some {r : Region} {v : Bytes}
    (h : (key_from_region r).2 = some v) : v = r.end_key ∧ r.end_key ≠ [] := by
  unfold key_from_region at h
  by_cases hs : r.end_key = [] <;> simp [hs] at h
  exact ⟨h.symm, hs⟩

theorem negMax_some {S x : Option Bytes} {m : Bytes}
    (h : negMax S x = some m) :
    (S = some m ∨ x = some m) ∧ (∀ s, S = some s → s ≤ m) ∧
    (∀ v, x = some v → v ≤ m) := by
  rcases S with _ | s <;> rcases x with _ | v <;> simp [negMax] at h <;> subst h
  · exact ⟨Or.inr rfl, by simp, by simp⟩
  · exact ⟨Or.inl rfl, by simp, by simp⟩
  · refine ⟨?_, ?_, ?_⟩
    · rcases max_choice s v with h | h
      · exact Or.inl (by rw [h])
      · exact Or.inr (by rw [h])
    · intro s' hs'
      rw [Option.some.injEq] at hs'
      exact hs' ▸ le_max_left s v
    · intro v' hv'
      rw [Option.some.injEq] at hv'
      exact hv' ▸ le_max_right s v

theorem posMin_some {E y : Option Bytes} {n : Bytes}
    (h : posMin E y = some n) :
    (E = some n ∨ y = some n) ∧ (∀ e, E = some e → n ≤ e) ∧
    (∀ v, y = some v → n ≤ v) := by
  rcases E with _ | e <;> rcases y with _ | v <;> simp [posMin] at h <;> subst h
  · exact ⟨Or.inr rfl, by simp, by simp⟩
  · exact ⟨Or.inl rfl, by simp, by simp⟩
  · refine ⟨?_, ?_, ?_⟩
    · rcases min_choice e v with h | h
      · exact Or.inl (by rw [h])
      · exact Or.inr (by rw [h])
    · intro e' he'
      rw [Option.some.injEq] at he'
      exact he' ▸ min_le_left e v
    · intro v' hv'
      rw [Option.some.injEq] at hv'
      exact hv' ▸ min_le_right e v

/-- Under a well-formed request, a region that survives the seek (its end is
past the request start), is not past the request end, and is itself non-empty
has a non-empty clipped range. -/
theorem boundLt_clip (S E : Option Bytes) (r : Region)
    (hreq : requestWF S E)
    (hbk : ∀ e, E = some e → r.start_key < e)
    (hsv : r.end_key = [] ∨ ∀ s, S = some s → s < r.end_key)
    (hwf : regionWF r) :
    boundLt (clipStart S r) (clipEnd E r) = true := by
  rw [clipStart_eq, clipEnd_eq]
  apply boundLt_true_of
  intro m n hm hn
  obtain ⟨hmsrc, -, -⟩ := negMax_some hm
  obtain ⟨hnsrc, -, -⟩ := posMin_some hn
  rcases hmsrc with hms | hmr
  · rcases hnsrc with hne | hnr
    · have := hreq.2
      rw [hms, hne] at this
      exact this
    · obtain ⟨hv, hvne⟩ := key_from_region_snd_some hnr
      subst hv
      exact (hsv.resolve_left hvne) m hms
  · have hv := key_from_region_fst_some hmr
    subst hv
    rcases hnsrc with hne | hnr
    · exact hbk n hne
    · obtain ⟨hv, hvne⟩ := key_from_region_snd_some hnr
      subst hv
      exact hwf.resolve_left hvne

/-- A strictly non-empty clipped range never triggers the emptiness
assertion. -/
theorem boundLt_ne {s e : Option Bytes} (h : boundLt s e = true)
    (he : e.isSome = true) : s ≠ e := by
  rcases s with _ | a <;> rcases e with _ | b
  · simp at he
  · simp
  · simp
  · simp only [boundLt, decide_eq_true_eq] at h
    intro hc
    rw [Option.some.injEq] at hc
    exact absurd (hc ▸ h) (lt_irrefl b)


/-! ## The enumeration matches the spec's clipped shard set -/

theorem specClippedRanges_nil (S E : Option Bytes) :
    specClippedRanges S E [] = [] := rfl

theorem specClippedRanges_eq_nil {S E : Option Bytes} {rs : List RegionInfo}
    (h : ∀ i ∈ rs, boundLt (negMax S (key_from_region i.region).1)
        (posMin E (key_from_region i.region).2) = false) :
    specClippedRanges S E rs = [] := by
  unfold specClippedRanges
  rw [List.map_eq_nil_iff, List.filter_eq_nil_iff]
  intro a ha
  rw [h a ha]
  simp

theorem specClippedRanges_cons_skip {S E : Option Bytes} {info : RegionInfo}
    (rest : List RegionInfo) (h : ¬ info.role = StateRole.Leader) :
    specClippedRanges S E (info :: rest) = specClippedRanges S E rest := by
  unfold specClippedRanges
  rw [List.filter_cons, if_neg (by simp [h])]

theorem specClippedRanges_cons_take {S E : Option Bytes} {info : RegionInfo}
    (rest : List RegionInfo) (hrole : info.role = StateRole.Leader)
    (hlt : boundLt (negMax S (key_from_region info.region).1)
        (posMin E (key_from_region info.region).2) = true) :
    specClippedRanges S E (info :: rest) =
      (negMax S (key_from_region info.region).1,
       posMin E (key_from_region info.region).2) :: specClippedRanges S E rest := by
  unfold specClippedRanges
  rw [List.filter_cons, if_pos (by simp [hrole, hlt])]
  rfl

/-- The spec properties of every `BackupRange` emitted by the seek loop:
its bounds are the clipped bounds of its own region, the clipped interval is
non-empty, and its leader is the region's peer on this store. -/
def emittedWF (sid : Nat) (S E : Option Bytes) (b : BackupRange) : Prop :=
  b.start_key = clipStart S b.region ∧ b.end_key = clipEnd E b.region ∧
  boundLt b.start_key b.end_key = true ∧
  b.leader ∈ b.region.peers ∧ b.leader.store_id = sid

/-- Main lemma: on a well-formed tail of the registry (refining regions in
order, every one surviving the seek), the loop succeeds and emits exactly the
spec's clipped ranges, in order. -/
theorem seekLoop_spec (sid : Nat) (S E : Option Bytes) (hreq : requestWF S E) :
    ∀ rs : List RegionInfo,
    (∀ i ∈ rs, regionWF i.region) →
    List.Pairwise regOrder rs →
    (∀ i ∈ rs, i.role = StateRole.Leader → (find_peer i.region sid).isSome = true) →
    (∀ i ∈ rs, i.region.end_key = [] ∨ ∀ s, S = some s → s < i.region.end_key) →
    ∃ l, seekLoop sid S E rs = .ok l ∧
      l.map (fun b => (b.start_key, b.end_key)) = specClippedRanges S E rs ∧
      ∀ b ∈ l, emittedWF sid S E b := by
  intro rs
  induction rs with
  | nil => exact fun _ _ _ _ => ⟨[], rfl, rfl, by simp⟩
  | cons info rest ih =>
    intro hwf hpw hpeers hsurv
    have hwfr : ∀ i ∈ rest, regionWF i.region :=
      fun i hi => hwf i (List.mem_cons_of_mem _ hi)
    have hpeersr : ∀ i ∈ rest, i.role = StateRole.Leader →
        (find_peer i.region sid).isSome = true :=
      fun i hi => hpeers i (List.mem_cons_of_mem _ hi)
    have hsurvr : ∀ i ∈ rest, i.region.end_key = [] ∨
        ∀ s, S = some s → s < i.region.end_key :=
      fun i hi => hsurv i (List.mem_cons_of_mem _ hi)
    by_cases hbrk : reachedEnd E info.region = true
    · -- the walk breaks here: nothing is emitted, and nothing qualifies
      obtain ⟨e, hE, hle⟩ : ∃ e, E = some e ∧ e ≤ info.region.start_key := by
        unfold reachedEnd at hbrk
        rcases E with _ | e
        · exact absurd hbrk (by simp)
        · exact ⟨e, rfl, by simpa using hbrk⟩
      have hene : e ≠ [] := by
        have := hreq.1
        rw [hE] at this
        exact this
      refine ⟨[], by simp [seekLoop, hbrk], ?_, by simp⟩
      rw [specClippedRanges_eq_nil, List.map_nil]
      intro j hj
      rcases List.mem_cons.1 hj with rfl | hjr
      · exact boundLt_false_of_le E hE hene S j.region hle
      · have hord : regOrder info j := (List.pairwise_cons.1 hpw).1 j hjr
        have hij : info.region.start_key < info.region.end_key :=
          (hwf info (List.mem_cons_self _ _)).resolve_left hord.1
        exact boundLt_false_of_le E hE hene S j.region
          (le_of_lt (lt_of_le_of_lt hle (lt_of_lt_of_le hij hord.2)))
    · have hnb : ∀ e, E = some e → info.region.start_key < e := by
        intro e hE
        unfold reachedEnd at hbrk
        rw [hE] at hbrk
        exact lt_of_not_le (by simpa using hbrk)
      obtain ⟨l, hl, hmap, hprops⟩ := ih hwfr hpw.of_cons hpeersr hsurvr
      by_cases hrole : info.role = StateRole.Leader
      · -- a leader region is emitted with the clipped bounds
        have hblt := boundLt_clip S E info.region hreq hnb
          (hsurv info (List.mem_cons_self _ _)) (hwf info (List.mem_cons_self _ _))
        have hassert : ¬ (clipStart S info.region = clipEnd E info.region ∧
            (clipEnd E info.region).isSome = true) := by
          rintro ⟨h1, h2⟩
          exact boundLt_ne hblt h2 h1
        obtain ⟨p, hp⟩ := Option.isSome_iff_exists.1
          (hpeers info (List.mem_cons_self _ _) hrole)
        refine ⟨⟨clipStart S info.region, clipEnd E info.region,
            info.region, p⟩ :: l, ?_, ?_, ?_⟩
        · simp only [seekLoop, if_neg hbrk, if_pos hrole, if_neg hassert,
            hp, hl]
        · rw [List.map_cons, hmap,
            specClippedRanges_cons_take rest hrole
              (by rw [← clipStart_eq, ← clipEnd_eq]; exact hblt),
            ← clipStart_eq, ← clipEnd_eq]
        · intro b hb
          rcases List.mem_cons.1 hb with rfl | hbl
          · refine ⟨rfl, rfl, hblt, List.mem_of_find?_eq_some hp, ?_⟩
            have := List.find?_some hp
            simpa using this
          · exact hprops b hbl
      · -- a follower region is skipped on both sides
        refine ⟨l, ?_, ?_, hprops⟩
        · simp only [seekLoop, if_neg hbrk, if_neg hrole, hl]
        · rw [hmap, specClippedRanges_cons_skip rest hrole]


theorem negMax_left_le (s : Bytes) (x : Option Bytes) :
    ∃ m, negMax (some s) x = some m ∧ s ≤ m := by
  rcases x with _ | v
  · exact ⟨s, rfl, le_refl s⟩
  · exact ⟨max s v, rfl, le_max_left s v⟩

theorem posMin_right_le (E : Option Bytes) (v : Bytes) :
    ∃ n, posMin E (some v) = some n ∧ n ≤ v := by
  rcases E with _ | e
  · exact ⟨v, rfl, le_refl v⟩
  · exact ⟨min e v, rfl, min_le_right e v⟩

/-- A region already finished before the request's start bound never
contributes a clipped range. -/
theorem boundLt_false_of_end_le {s : Bytes} (E : Option Bytes) (r : Region)
    (hre : r.end_key ≠ []) (hle : r.end_key ≤ s) :
    boundLt (negMax (some s) (key_from_region r).1)
      (posMin E (key_from_region r).2) = false := by
  obtain ⟨m, hm, hsm⟩ := negMax_left_le s (key_from_region r).1
  have hk2 : (key_from_region r).2 = some r.end_key := by
    simp [key_from_region, hre]
  obtain ⟨n, hn, hnv⟩ := posMin_right_le E r.end_key
  rw [hm, hk2, hn]
  simp only [boundLt, decide_eq_false_iff_not]
  exact not_lt_of_le (le_trans hnv (le_trans hle hsm))

theorem specClippedRanges_append (S E : Option Bytes)
    (l1 l2 : List RegionInfo) :
    specClippedRanges S E (l1 ++ l2) =
      specClippedRanges S E l1 ++ specClippedRanges S E l2 := by
  unfold specClippedRanges
  rw [List.filter_append, List.map_append]

/-- Either `dropWhile` drops everything or its result starts with an element
refuting the predicate. -/
theorem dropWhile_head_not {α : Type} (p : α → Bool) :
    ∀ l : List α, List.dropWhile p l = [] ∨
      ∃ h t, List.dropWhile p l = h :: t ∧ p h = false := by
  intro l
  induction l with
  | nil => exact Or.inl rfl
  | cons a l ih =>
    by_cases hp : p a = true
    · rw [List.dropWhile_cons_of_pos hp]
      exact ih
    · exact Or.inr ⟨a, l, List.dropWhile_cons_of_neg hp,
        Bool.not_eq_true _ ▸ hp⟩

/-- `Endpoint::seek_backup_range` refines the spec's clipped shard set: on a
well-formed request against a well-formed registry whose locally-led regions
all carry a peer on this store, the enumeration succeeds and emits, in
registry order, exactly the ranges `(max(S, r.start), min(E, r.end))` of the
locally-led regions with a non-empty clipped interval. -/
theorem seek_backup_range_spec (sid : Nat) (regs : List RegionInfo)
    (S E : Option Bytes)
    (hreq : requestWF S E)
    (hwf : ∀ i ∈ regs, regionWF i.region)
    (hpw : List.Pairwise regOrder regs)
    (hpeers : ∀ i ∈ regs, i.role = StateRole.Leader →
      (find_peer i.region sid).isSome = true) :
    ∃ l, seek_backup_range sid regs S E = .ok l ∧
      l.map (fun b => (b.start_key, b.end_key)) = specClippedRanges S E regs ∧
      ∀ b ∈ l, emittedWF sid S E b := by
  have hsplit := List.takeWhile_append_dropWhile
    (fun info => decide (info.region.end_key ≠ [] ∧
      info.region.end_key ≤ S.elim ([] : Bytes) id)) regs
  set p : RegionInfo → Bool := fun info =>
    decide (info.region.end_key ≠ [] ∧
      info.region.end_key ≤ S.elim ([] : Bytes) id) with hp
  have hsubl : (List.dropWhile p regs).Sublist regs :=
    (List.dropWhile_suffix p).sublist
  have hwf' : ∀ i ∈ List.dropWhile p regs, regionWF i.region :=
    fun i hi => hwf i (hsubl.mem hi)
  have hpw' : List.Pairwise regOrder (List.dropWhile p regs) :=
    hpw.sublist hsubl
  have hpeers' : ∀ i ∈ List.dropWhile p regs,
      i.role = StateRole.Leader → (find_peer i.region sid).isSome = true :=
    fun i hi => hpeers i (hsubl.mem hi)
  -- every region surviving the seek reaches past the request's start
  have hsurv : ∀ i ∈ List.dropWhile p regs, i.region.end_key = [] ∨
      ∀ s, S = some s → s < i.region.end_key := by
    rcases dropWhile_head_not p regs with hnil | ⟨h0, t, hht, hh0⟩
    · rw [hnil]
      intro i hi
      exact absurd hi (List.not_mem_nil i)
    · have hh0' : ¬ (h0.region.end_key ≠ [] ∧
          h0.region.end_key ≤ S.elim ([] : Bytes) id) :=
        of_decide_eq_false hh0
      have hh0lt : h0.region.end_key ≠ [] →
          ∀ s, S = some s → s < h0.region.end_key := by
        intro hne s hS
        subst hS
        exact lt_of_not_le (fun hb => hh0' ⟨hne, hb⟩)
      rw [hht]
      intro i hi
      rcases List.mem_cons.1 hi with rfl | hit
      · by_cases hie : i.region.end_key = []
        · exact Or.inl hie
        · exact Or.inr (hh0lt hie)
      · by_cases hie : i.region.end_key = []
        · exact Or.inl hie
        · refine Or.inr (fun s hS => ?_)
          have hpwd : List.Pairwise regOrder (h0 :: t) := hht ▸ hpw'
          have hord : regOrder h0 i := (List.pairwise_cons.1 hpwd).1 i hit
          have himem : i ∈ List.dropWhile p regs := by
            rw [hht]
            exact List.mem_cons_of_mem _ hit
          have hi_wf : i.region.start_key < i.region.end_key :=
            (hwf' i himem).resolve_left hie
          exact lt_trans (lt_of_lt_of_le (hh0lt hord.1 s hS) hord.2) hi_wf
  obtain ⟨l, hl, hmap, hprops⟩ :=
    seekLoop_spec sid S E hreq (List.dropWhile p regs) hwf' hpw' hpeers' hsurv
  refine ⟨l, hl, ?_, hprops⟩
  rw [hmap]
  -- dropped regions contribute nothing to the spec set
  have hdropped : specClippedRanges S E (List.takeWhile p regs) = [] := by
    apply specClippedRanges_eq_nil
    intro i hi
    have hpi : p i = true := List.mem_takeWhile_imp hi
    rw [hp] at hpi
    have hpi' := of_decide_eq_true hpi
    rcases S with _ | s
    · exact absurd (bytes_le_nil hpi'.2) hpi'.1
    · exact boundLt_false_of_end_le E i.region hpi'.1 hpi'.2
  conv_rhs => rw [← hsplit]
  rw [specClippedRanges_append, hdropped, List.nil_append]


/-! ## Containment of an emitted range in the request and region ranges -/

/-- Comparison of two lower bounds, `none` standing for minus-infinity. -/
def loLe (a b : Option Bytes) : Bool :=
  match a, b with
  | none, _ => true
  | some _, none => false
  | some x, some y => decide (x ≤ y)

/-- Comparison of two upper bounds, `none` standing for plus-infinity. -/
def hiLe (a b : Option Bytes) : Bool :=
  match a, b with
  | _, none => true
  | none, some _ => false
  | some x, some y => decide (x ≤ y)

theorem loLe_negMax_left (S x : Option Bytes) : loLe S (negMax S x) = true := by
  rcases S with _ | s <;> rcases x with _ | v <;>
    simp [loLe, negMax, le_max_left]

theorem loLe_negMax_right (S x : Option Bytes) : loLe x (negMax S x) = true := by
  rcases S with _ | s <;> rcases x with _ | v <;>
    simp [loLe, negMax, le_max_right]

theorem hiLe_posMin_left (E y : Option Bytes) : hiLe (posMin E y) E = true := by
  rcases E with _ | e <;> rcases y with _ | v <;>
    simp [hiLe, posMin, min_le_left]

theorem hiLe_posMin_right (E y : Option Bytes) : hiLe (posMin E y) y = true := by
  rcases E with _ | e <;> rcases y with _ | v <;>
    simp [hiLe, posMin, min_le_right]

/-! ## Concrete fixtures

The registry of the spec's section 8 scenarios: regions
`[(-inf,"1"),("1","2"),("3","4"),("7","9"),("9",+inf)]`, all leader on this
store, with their boundary keys encoded as the test harness does
(`MockRegionInfoProvider::set_regions`). -/

/-- A leader region with raw boundary keys `s`, `e` (empty meaning unbounded)
and a single peer on store 1, as built by the tests' `set_regions`. -/
def mkLeaderRegion (id : Nat) (s e : Bytes) : RegionInfo :=
  { region :=
      { id := id, region_epoch := { version := 1, conf_ver := 1 },
        start_key := if s = [] then [] else encodeBytes s,
        end_key := if e = [] then [] else encodeBytes e,
        peers := [{ store_id := 1, id := 1 }] },
    role := StateRole.Leader }

/-- The five-region registry of spec section 8 (raw keys "1" = 49, "2" = 50,
"3" = 51, "4" = 52, "7" = 55, "9" = 57). -/
def scenarioRegistry : List RegionInfo :=
  [mkLeaderRegion 1 [] [49], mkLeaderRegion 2 [49] [50],
   mkLeaderRegion 3 [51] [52], mkLeaderRegion 4 [55] [57],
   mkLeaderRegion 5 [57] []]

/-- Run the enumeration against the scenario registry with raw request bounds
and report the emitted ranges as raw keys, as the test harness `t` does. -/
def seekRaw (s e : Bytes) : Except BackupPanic (List (Bytes × Bytes)) :=
  (seek_backup_range 1 scenarioRegistry
      (if s = [] then none else some (encodeBytes s))
      (if e = [] then none else some (encodeBytes e))).map
    (List.map fun b =>
      ((rawOfBound b.start_key).getD [], (rawOfBound b.end_key).getD []))

/-- The registry for the C1 counterexample: two leader regions out of
ascending order. -/
def c1cexRegistry : List RegionInfo :=
  [mkLeaderRegion 1 [53] [54], mkLeaderRegion 2 [49] [50]]

/-! ## Claim C1 -/

/-- Claim C1, counterexample: against a registry that is not sorted (regions
`("5","6")` then `("1","2")`, both leader with a local peer), the request
`(-inf, "3")` makes the walk break at the first region and emit nothing, while
the spec-side set contains the clipped range `("1","2")`.  The multiset of
emitted ranges therefore differs from the spec's set for this registry state,
refuting the claim's unconditional quantification over registry states. -/
theorem claim_C1_cex :
    seek_backup_range 1 c1cexRegistry none (some (encodeBytes [51])) =
      .ok [] ∧
    specClippedRanges none (some (encodeBytes [51])) c1cexRegistry =
      [(some (encodeBytes [49]), some (encodeBytes [50]))] ∧
    (↑(([] : List BackupRange).map (fun b => (b.start_key, b.end_key))) :
        Multiset (Option Bytes × Option Bytes)) ≠
      ↑(specClippedRanges none (some (encodeBytes [51])) c1cexRegistry) := by
  refine ⟨by rfl, by rfl, ?_⟩
  intro h
  rw [show specClippedRanges none (some (encodeBytes [51])) c1cexRegistry =
      [(some (encodeBytes [49]), some (encodeBytes [50]))] from rfl] at h
  exact absurd (Multiset.coe_eq_coe.1 h).length_eq (by simp)

/-- Claim C1 (amended): for a well-formed request (a present end bound is a
non-empty key, and the start is strictly below the end when both are present)
and a well-formed registry (regions non-empty and refining the key space in
ascending order, every locally-led region carrying a peer on this store), the
multiset of ranges emitted by `seek_backup_range` equals the spec set
`(max(S, r.start), min(E, r.end))` over the locally-led regions with
non-empty clipped interval; and each of the eight concrete request scenarios
of spec section 8 yields exactly the listed shard ranges. -/
theorem claim_C1 :
    (∀ sid regs S E, requestWF S E →
      (∀ i ∈ regs, regionWF i.region) →
      List.Pairwise regOrder regs →
      (∀ i ∈ regs, i.role = StateRole.Leader →
        (find_peer i.region sid).isSome = true) →
      ∃ l, seek_backup_range sid regs S E = .ok l ∧
        ((l.map (fun b => (b.start_key, b.end_key))) :
          Multiset (Option Bytes × Option Bytes)) =
        ↑(specClippedRanges S E regs)) ∧
    seekRaw [] [49] = .ok [([], [49])] ∧
    seekRaw [] [50] = .ok [([], [49]), ([49], [50])] ∧
    seekRaw [49] [51] = .ok [([49], [50])] ∧
    seekRaw [52] [54] = .ok [] ∧
    seekRaw [50] [55] = .ok [([51], [52])] ∧
    seekRaw [51] [] = .ok [([51], [52]), ([55], [57]), ([57], [])] ∧
    seekRaw [56] [57, 49] = .ok [([56], [57]), ([57], [57, 49])] ∧
    seekRaw [] [] = .ok [([], [49]), ([49], [50]), ([51], [52]),
      ([55], [57]), ([57], [])] := by
  refine ⟨?_, by rfl, by rfl, by rfl, by rfl, by rfl, by rfl, by rfl, by rfl⟩
  intro sid regs S E hreq hwf hpw hpeers
  obtain ⟨l, hl, hmap, -⟩ := seek_backup_range_spec sid regs S E hreq hwf hpw hpeers
  exact ⟨l, hl, by rw [hmap]⟩

/-- Witness for claim C1: the amended statement applied to the scenario
registry with the request `(-inf, "2")`. -/
theorem claim_C1_witness :
    ∃ l, seek_backup_range 1 scenarioRegistry none (some (encodeBytes [50])) =
        .ok l ∧
      ((l.map (fun b => (b.start_key, b.end_key))) :
        Multiset (Option Bytes × Option Bytes)) =
      ↑(specClippedRanges none (some (encodeBytes [50])) scenarioRegistry) :=
  claim_C1.1 1 scenarioRegistry none (some (encodeBytes [50]))
    (by decide) (by decide) (by decide) (by decide)

/-! ## Claim C2 -/

/-- Claim C2, counterexample: with the single leader region covering the whole
key space and the degenerate request `("5","5")` (start equal to end), the
clipped start and end coincide and the emptiness assertion of
`seek_backup_range` fires, refuting the claim's unconditional quantification
over requests. -/
theorem claim_C2_cex :
    seek_backup_range 1 [mkLeaderRegion 1 [] []]
      (some (encodeBytes [53])) (some (encodeBytes [53])) =
      .error .assertEmptyRange := by rfl

/-- Claim C2 (amended): for a well-formed request and a well-formed registry,
the emptiness assertion never fires (the enumeration succeeds), and every
emitted `BackupRange` has a strictly non-empty clipped interval contained in
both the request range and its region's range. -/
theorem claim_C2 (sid : Nat) (regs : List RegionInfo) (S E : Option Bytes)
    (hreq : requestWF S E)
    (hwf : ∀ i ∈ regs, regionWF i.region)
    (hpw : List.Pairwise regOrder regs)
    (hpeers : ∀ i ∈ regs, i.role = StateRole.Leader →
      (find_peer i.region sid).isSome = true) :
    ∃ l, seek_backup_range sid regs S E = .ok l ∧
      ∀ b ∈ l, boundLt b.start_key b.end_key = true ∧
        loLe S b.start_key = true ∧ hiLe b.end_key E = true ∧
        loLe (key_from_region b.region).1 b.start_key = true ∧
        hiLe b.end_key (key_from_region b.region).2 = true := by
  obtain ⟨l, hl, -, hprops⟩ := seek_backup_range_spec sid regs S E hreq hwf hpw hpeers
  refine ⟨l, hl, fun b hb => ?_⟩
  obtain ⟨hs, he, hlt, -, -⟩ := hprops b hb
  rw [hs, he, clipStart_eq, clipEnd_eq]
  exact ⟨by rw [← clipStart_eq, ← clipEnd_eq, ← hs, ← he]; exact hlt,
    loLe_negMax_left S _, hiLe_posMin_left E _,
    loLe_negMax_right S _, hiLe_posMin_right E _⟩

/-- Witness for claim C2: the amended statement applied to the scenario
registry with the request `("8","91")`. -/
theorem claim_C2_witness :
    ∃ l, seek_backup_range 1 scenarioRegistry (some (encodeBytes [56]))
        (some (encodeBytes [57, 49])) = .ok l ∧
      ∀ b ∈ l, boundLt b.start_key b.end_key = true ∧
        loLe (some (encodeBytes [56])) b.start_key = true ∧
        hiLe b.end_key (some (encodeBytes [57, 49])) = true ∧
        loLe (key_from_region b.region).1 b.start_key = true ∧
        hiLe b.end_key (key_from_region b.region).2 = true :=
  claim_C2 1 scenarioRegistry (some (encodeBytes [56]))
    (some (encodeBytes [57, 49])) (by decide) (by decide) (by decide) (by decide)


/-! ## Facts about the dispatch and response loops -/

theorem dispatchAll_length (task : Task) (envs : Nat → ShardEnv) :
    ∀ (i : Nat) (brs : List BackupRange),
      (dispatchAll task envs i brs).length = brs.length := by
  intro i brs
  induction brs generalizing i with
  | nil => rfl
  | cons b rest ih => simp [dispatchAll, ih]

theorem responsesOf_ok_length (task : Task) :
    ∀ {xs : List (BackupRange × Except BError (List File × Nat))}
      {rs : List BackupResponse},
      responsesOf task xs = .ok rs → rs.length = xs.length := by
  intro xs
  induction xs with
  | nil =>
    intro rs h
    rw [show responsesOf task [] = .ok [] from rfl] at h
    cases h
    rfl
  | cons x rest ih =>
    intro rs h
    unfold responsesOf at h
    rcases hm : mkResponse task x.1 x.2 with p | r <;> rw [hm] at h
    · cases h
    · rcases hr : responsesOf task rest with p | rs' <;> rw [hr] at h
      · cases h
      · cases h
        simp [ih hr]

theorem responsesOf_ok_mem (task : Task) :
    ∀ {xs : List (BackupRange × Except BError (List File × Nat))}
      {rs : List BackupResponse},
      responsesOf task xs = .ok rs → ∀ r ∈ rs,
        ∃ x ∈ xs, mkResponse task x.1 x.2 = .ok r := by
  intro xs
  induction xs with
  | nil =>
    intro rs h r hr
    rw [show responsesOf task [] = .ok [] from rfl] at h
    cases h
    exact absurd hr (List.not_mem_nil r)
  | cons x rest ih =>
    intro rs h r hr
    unfold responsesOf at h
    rcases hm : mkResponse task x.1 x.2 with p | r0 <;> rw [hm] at h
    · cases h
    · rcases hrest : responsesOf task rest with p | rs' <;> rw [hrest] at h
      · cases h
      · cases h
        rcases List.mem_cons.1 hr with rfl | hr'
        · exact ⟨x, List.mem_cons_self _ _, hm⟩
        · obtain ⟨y, hy, hm'⟩ := ih hrest r hr'
          exact ⟨y, List.mem_cons_of_mem _ hy, hm'⟩

theorem responsesOf_ok_all (task : Task) :
    ∀ {xs : List (BackupRange × Except BError (List File × Nat))}
      {rs : List BackupResponse},
      responsesOf task xs = .ok rs → ∀ x ∈ xs,
        ∃ r, mkResponse task x.1 x.2 = .ok r := by
  intro xs
  induction xs with
  | nil =>
    intro rs _ x hx
    exact absurd hx (List.not_mem_nil x)
  | cons x rest ih =>
    intro rs h y hy
    unfold responsesOf at h
    rcases hm : mkResponse task x.1 x.2 with p | r0 <;> rw [hm] at h
    · cases h
    · rcases hrest : responsesOf task rest with p | rs' <;> rw [hrest] at h
      · cases h
      · rcases List.mem_cons.1 hy with rfl | hy'
        · exact ⟨r0, hm⟩
        · exact ih hrest y hy'

theorem responsesOf_eq_map (task : Task)
    (g : BackupRange × Except BError (List File × Nat) → BackupResponse) :
    ∀ {xs : List (BackupRange × Except BError (List File × Nat))},
      (∀ x ∈ xs, mkResponse task x.1 x.2 = .ok (g x)) →
      responsesOf task xs = .ok (xs.map g) := by
  intro xs
  induction xs with
  | nil => intro _; rfl
  | cons x rest ih =>
    intro h
    unfold responsesOf
    rw [h x (List.mem_cons_self _ _), ih (fun y hy => h y (List.mem_cons_of_mem _ hy))]
    rfl

theorem length_filterMap_of_isSome {α β : Type} (f : α → Option β) :
    ∀ {l : List α}, (∀ a ∈ l, (f a).isSome = true) →
      (l.filterMap f).length = l.length := by
  intro l
  induction l with
  | nil => intro _; rfl
  | cons a rest ih =>
    intro h
    obtain ⟨b, hb⟩ := Option.isSome_iff_exists.1 (h a (List.mem_cons_self _ _))
    rw [List.filterMap_cons, hb]
    simp [ih (fun y hy => h y (List.mem_cons_of_mem _ hy))]

theorem filterMap_getElem_range {α : Type} :
    ∀ l : List α,
      (List.range l.length).filterMap (fun i => l[i]?) = l := by
  intro l
  induction l with
  | nil => rfl
  | cons a rest ih =>
    rw [List.length_cons, List.range_succ_eq_map, List.filterMap_cons,
      List.filterMap_map]
    simp only [List.getElem?_cons_zero, Function.comp_def,
      List.getElem?_cons_succ]
    rw [ih]


/-- Inversion of a successful `handle_backup_task`: the enumeration produced
exactly the returned shard list and the response loop produced exactly the
returned responses from the scheduled result tuples. -/
theorem handle_backup_task_ok_inv {sid : Nat} {regs : List RegionInfo}
    {task : Task} {envs : Nat → ShardEnv} {sched : List Nat}
    {branges : List BackupRange} {resps : List BackupResponse}
    (hh : handle_backup_task sid regs task envs sched = .ok (branges, resps)) :
    seek_backup_range sid regs
      (if task.start_key = [] then none else some (encodeBytes task.start_key))
      (if task.end_key = [] then none else some (encodeBytes task.end_key)) =
      .ok branges ∧
    responsesOf task (sched.filterMap
      (fun i => (dispatchAll task envs 0 branges)[i]?)) = .ok resps := by
  unfold handle_backup_task at hh
  simp only [] at hh
  rcases hseek : seek_backup_range sid regs
      (if task.start_key = [] then none else some (encodeBytes task.start_key))
      (if task.end_key = [] then none else some (encodeBytes task.end_key))
    with p | brs <;> rw [hseek] at hh <;> simp only [] at hh
  · cases hh
  · rcases hresp : responsesOf task (sched.filterMap
        (fun i => (dispatchAll task envs 0 brs)[i]?)) with p | rs <;>
      rw [hresp] at hh
    · cases hh
    · rw [show Except.map (fun resps => (brs, resps))
          (Except.ok (ε := BackupPanic) rs) = .ok (brs, rs) from rfl] at hh
      cases hh
      exact ⟨rfl, hresp⟩


/-! ## Claim C3 -/

/-- Claim C3: for a task whose response channel stays open (as modelled) and a
completed run (the completion schedule is a permutation of the shard indices),
`handle_backup_task` emits exactly one response per enumerated `BackupRange` —
never more and never fewer, whatever the per-shard outcomes — and the receive
loop terminates after the last result. -/
theorem claim_C3 (sid : Nat) (regs : List RegionInfo) (task : Task)
    (envs : Nat → ShardEnv) (sched : List Nat)
    (branges : List BackupRange) (resps : List BackupResponse)
    (hh : handle_backup_task sid regs task envs sched = .ok (branges, resps))
    (hs : sched.Perm (List.range branges.length)) :
    resps.length = branges.length := by
  obtain ⟨-, hresp⟩ := handle_backup_task_ok_inv hh
  have hlen := responsesOf_ok_length task hresp
  have hall : ∀ i ∈ sched,
      ((dispatchAll task envs 0 branges)[i]?).isSome = true := by
    intro i hi
    have hilt : i < branges.length := by
      simpa using hs.mem_iff.1 hi
    rw [List.getElem?_eq_getElem
      (by rw [dispatchAll_length task envs 0 branges]; exact hilt)]
    rfl
  rw [hlen, length_filterMap_of_isSome _ hall, hs.length_eq,
    List.length_range]

/-- A shard oracle on which every external step succeeds and the sink returns
no file. -/
def trivialEnv : ShardEnv :=
  { snapshot := .ok (), writer := .ok (), scans := [],
    writeRes := fun _ => .ok (), save := .ok [], stat := 0 }

/-- Witness for claim C3: a one-region registry, an all-success oracle and the
one-element schedule produce exactly one response for the one enumerated
shard. -/
theorem claim_C3_witness :
    ([({ start_key := [], end_key := [], files := [], error := none } :
        BackupResponse)]).length =
    ([({ start_key := none, end_key := none,
         region := (mkLeaderRegion 1 [] []).region,
         leader := { store_id := 1, id := 1 } } : BackupRange)]).length :=
  claim_C3 1 [mkLeaderRegion 1 [] []]
    { start_key := [], end_key := [], start_ts := 5, end_ts := 5 }
    (fun _ => trivialEnv) [0] _ _ (by rfl) (by decide)

/-! ## Claim C4 -/

/-- Claim C4: in every successful shard response of `handle_backup_task` for a
full-backup task (`start_ts = end_ts`), every file carries the response's
start and end keys and has both versions equal to the request's
`end_version`. -/
theorem claim_C4 (sid : Nat) (regs : List RegionInfo) (task : Task)
    (envs : Nat → ShardEnv) (sched : List Nat)
    (branges : List BackupRange) (resps : List BackupResponse)
    (r : BackupResponse) (f : File)
    (hts : task.start_ts = task.end_ts)
    (hh : handle_backup_task sid regs task envs sched = .ok (branges, resps))
    (hr : r ∈ resps) (herr : r.error = none) (hf : f ∈ r.files) :
    f.start_key = r.start_key ∧ f.end_key = r.end_key ∧
    f.start_version = task.end_ts ∧ f.end_version = task.end_ts := by
  obtain ⟨-, hresp⟩ := handle_backup_task_ok_inv hh
  obtain ⟨x, -, hmk⟩ := responsesOf_ok_mem task hresp r hr
  unfold mkResponse at hmk
  rcases hsk : rawOfBound x.1.start_key with _ | sk <;> rw [hsk] at hmk
  · cases hmk
  rcases hek : rawOfBound x.1.end_key with _ | ek <;> rw [hek] at hmk
  · cases hmk
  rcases hx2 : x.2 with e | ⟨files, stat⟩ <;> rw [hx2] at hmk
  · simp only [] at hmk
    cases hmk
    exact absurd hf (List.not_mem_nil f)
  · simp only [] at hmk
    cases hmk
    simp only [List.mem_map] at hf
    obtain ⟨f0, -, hfeq⟩ := hf
    subst hfeq
    exact ⟨rfl, rfl, hts ▸ rfl, rfl⟩

/-- Witness for claim C4: the single successful shard of a whole-space backup
carries a file stamped with the response's keys and the request timestamp. -/
theorem claim_C4_witness :
    ({ name := 7, start_key := [], end_key := [], start_version := 5,
       end_version := 5 } : File).start_key =
      ({ start_key := [], end_key := [],
         files := [{ name := 7, start_key := [], end_key := [],
                     start_version := 5, end_version := 5 }],
         error := none } : BackupResponse).start_key ∧
    ({ name := 7, start_key := [], end_key := [], start_version := 5,
       end_version := 5 } : File).end_key =
      ({ start_key := [], end_key := [],
         files := [{ name := 7, start_key := [], end_key := [],
                     start_version := 5, end_version := 5 }],
         error := none } : BackupResponse).end_key ∧
    ({ name := 7, start_key := [], end_key := [], start_version := 5,
       end_version := 5 } : File).start_version = 5 ∧
    ({ name := 7, start_key := [], end_key := [], start_version := 5,
       end_version := 5 } : File).end_version = 5 :=
  claim_C4 1 [mkLeaderRegion 1 [] []]
    { start_key := [], end_key := [], start_ts := 5, end_ts := 5 }
    (fun _ => { trivialEnv with
      save := .ok [{ name := 7, start_key := [1], end_key := [2],
                     start_version := 3, end_version := 4 }] })
    [0] _ _ _ _ (by rfl) (by rfl) (by decide) (by rfl) (by decide)

/-! ## Claim C5 -/

/-- Claim C5: a task with `start_ts` different from `end_ts` is logged and
dropped by `Runnable::run`: no response is produced and no shard is
dispatched; a full backup runs only when the two timestamps agree. -/
theorem claim_C5 (sid : Nat) (regs : List RegionInfo) (task : Task)
    (envs : Nat → ShardEnv) (sched : List Nat)
    (h : task.start_ts ≠ task.end_ts) :
    run sid regs task envs sched = .ok ([], []) := by
  unfold run
  rw [if_neg h]

/-- Witness for claim C5: an incremental request (`start_ts = 1`,
`end_ts = 2`) produces no shard and no response. -/
theorem claim_C5_witness :
    run 1 scenarioRegistry
      { start_key := [], end_key := [], start_ts := 1, end_ts := 2 }
      (fun _ => trivialEnv) [0] = .ok ([], []) :=
  claim_C5 1 scenarioRegistry _ (fun _ => trivialEnv) [0] (by decide)


/-! ## Claims C6 and C7: the per-shard pipeline -/

theorem scanWriteLoop_error_shape (writeRes : Nat → Except BError Unit)
    (hw : ∀ j, writeRes j = .ok ()) (e : TxnError)
    (post : List (Except TxnError (List Entry))) :
    ∀ pre : List (Except TxnError (List Entry)),
      (∀ b ∈ pre, ∃ l, b = Except.ok l ∧ l ≠ []) → ∀ i,
      ∃ W, scanWriteLoop writeRes i (pre ++ .error e :: post) =
        (W, some (txnErrorInto e)) := by
  intro pre
  induction pre with
  | nil => exact fun _ i => ⟨[], rfl⟩
  | cons b rest ih =>
    intro hpre i
    obtain ⟨l, hbl, hlne⟩ := hpre b (List.mem_cons_self _ _)
    subst hbl
    rcases l with _ | ⟨a, l'⟩
    · exact absurd rfl hlne
    · obtain ⟨W, hW⟩ :=
        ih (fun y hy => hpre y (List.mem_cons_of_mem _ hy)) (i + 1)
      refine ⟨(a :: l') :: W, ?_⟩
      rw [List.cons_append]
      unfold scanWriteLoop
      rw [hw i, hW]

theorem scanWriteLoop_drain (writeRes : Nat → Except BError Unit)
    (hw : ∀ j, writeRes j = .ok ())
    (rest : List (Except TxnError (List Entry))) :
    ∀ batches : List (List Entry), (∀ b ∈ batches, b ≠ []) → ∀ i,
      scanWriteLoop writeRes i
        (batches.map Except.ok ++ Except.ok [] :: rest) = (batches, none) := by
  intro batches
  induction batches with
  | nil => exact fun _ i => rfl
  | cons b bs ih =>
    intro hne i
    rcases hb : b with _ | ⟨a, b'⟩
    · exact absurd hb (hne b (List.mem_cons_self _ _))
    · rw [List.map_cons, List.cons_append]
      unfold scanWriteLoop
      rw [hw i, ih (fun y hy => hne y (List.mem_cons_of_mem _ hy)) (i + 1)]

/-- Claim C6: per-shard errors are classified by their source.  A snapshot
acquisition failure (a region error) is sent back at once — no SST writer is
created, nothing is written or saved — and surfaces in the response as
`error.region_error` with an empty file list and the shard's own keys.  An
entry-scanner failure mid-scan (a kv error) aborts the shard before any save
and surfaces as `error.kv_error`, again with empty files and the shard's
keys. -/
theorem claim_C6 :
    (∀ (brange : BackupRange) (ts1 ts2 c : Nat) (env : ShardEnv)
       (task : Task) (sk ek : Bytes),
      env.snapshot = .error (.regionError c) →
      rawOfBound brange.start_key = some sk →
      rawOfBound brange.end_key = some ek →
      (dispatch_backup_range brange ts1 ts2 env).result =
        .error (.regionError c) ∧
      (dispatch_backup_range brange ts1 ts2 env).writer_created = false ∧
      (dispatch_backup_range brange ts1 ts2 env).save_called = false ∧
      (dispatch_backup_range brange ts1 ts2 env).batches_written = [] ∧
      mkResponse task brange (.error (.regionError c)) =
        .ok { start_key := sk, end_key := ek, files := [],
              error := some (.regionError c) }) ∧
    (∀ (brange : BackupRange) (ts1 ts2 c : Nat) (env : ShardEnv)
       (task : Task) (sk ek : Bytes)
       (pre post : List (Except TxnError (List Entry))),
      env.snapshot = .ok () → env.writer = .ok () →
      (∀ j, env.writeRes j = .ok ()) →
      env.scans = pre ++ .error (.kvError c) :: post →
      (∀ b ∈ pre, ∃ l, b = Except.ok l ∧ l ≠ []) →
      rawOfBound brange.start_key = some sk →
      rawOfBound brange.end_key = some ek →
      (dispatch_backup_range brange ts1 ts2 env).result =
        .error (.kvError c) ∧
      (dispatch_backup_range brange ts1 ts2 env).save_called = false ∧
      mkResponse task brange (.error (.kvError c)) =
        .ok { start_key := sk, end_key := ek, files := [],
              error := some (.kvError c) }) := by
  constructor
  · intro brange ts1 ts2 c env task sk ek hsnap hsk hek
    refine ⟨?_, ?_, ?_, ?_, ?_⟩
    · simp only [dispatch_backup_range, hsnap, engineErrorInto]
    · simp only [dispatch_backup_range, hsnap]
    · simp only [dispatch_backup_range, hsnap]
    · simp only [dispatch_backup_range, hsnap]
    · simp only [mkResponse, hsk, hek]
  · intro brange ts1 ts2 c env task sk ek pre post hsnap hwr hw hscans hpre
      hsk hek
    obtain ⟨W, hW⟩ :=
      scanWriteLoop_error_shape env.writeRes hw (.kvError c) post pre hpre 0
    refine ⟨?_, ?_, ?_⟩
    · simp only [dispatch_backup_range, hsnap, hwr, hscans, hW, txnErrorInto]
    · simp only [dispatch_backup_range, hsnap, hwr, hscans, hW]
    · simp only [mkResponse, hsk, hek]

/-- The shard of the C6 and C7 witnesses: the unbounded clipped range of the
all-covering region. -/
def wholeRange : BackupRange :=
  { start_key := none, end_key := none,
    region := (mkLeaderRegion 1 [] []).region,
    leader := { store_id := 1, id := 1 } }

/-- The oracle of the C6 witness's kv-error shard: one non-empty batch, then a
lock error from the scanner. -/
def kvErrEnv : ShardEnv :=
  { trivialEnv with
    scans := [Except.ok [{ key := [1], value := [2] }],
              Except.error (.kvError 9)] }

/-- The oracle of the C6 witness's region-error shard: snapshot acquisition
fails. -/
def snapErrEnv : ShardEnv :=
  { trivialEnv with snapshot := .error (.regionError 3) }

/-- The full-backup task of the dispatch witnesses. -/
def wholeTask : Task :=
  { start_key := [], end_key := [], start_ts := 5, end_ts := 5 }

/-- Witness for claim C6: a shard whose snapshot fails with region error 3 and
a shard whose scan hits kv error 9, both on the unbounded range. -/
theorem claim_C6_witness :
    ((dispatch_backup_range wholeRange 5 5 snapErrEnv).result =
        .error (.regionError 3) ∧
     (dispatch_backup_range wholeRange 5 5 snapErrEnv).writer_created = false ∧
     (dispatch_backup_range wholeRange 5 5 snapErrEnv).save_called = false ∧
     (dispatch_backup_range wholeRange 5 5 snapErrEnv).batches_written = [] ∧
     mkResponse wholeTask wholeRange (.error (.regionError 3)) =
       .ok { start_key := [], end_key := [], files := [],
             error := some (.regionError 3) }) ∧
    ((dispatch_backup_range wholeRange 5 5 kvErrEnv).result =
        .error (.kvError 9) ∧
     (dispatch_backup_range wholeRange 5 5 kvErrEnv).save_called = false ∧
     mkResponse wholeTask wholeRange (.error (.kvError 9)) =
       .ok { start_key := [], end_key := [], files := [],
             error := some (.kvError 9) }) :=
  ⟨claim_C6.1 wholeRange 5 5 3 snapErrEnv wholeTask [] [] rfl rfl rfl,
   claim_C6.2 wholeRange 5 5 9 kvErrEnv wholeTask [] []
     [Except.ok [{ key := [1], value := [2] }]] [] rfl rfl (fun _ => rfl) rfl
     (by
       intro b hb
       rw [List.mem_singleton] at hb
       exact ⟨[{ key := [1], value := [2] }], hb, by simp⟩)
     rfl rfl⟩

/-- Claim C7: for every dispatched shard whose snapshot succeeds, the scan is
set up on a snapshot store at `backup_ts` equal to the request's end version,
at snapshot-isolation level with `fill_cache = false`, bounded by the shard's
clipped keys and drained through an entry batch of capacity 1024; the loop
hands the writer exactly the non-empty batches preceding the scanner's first
empty batch and then saves. -/
theorem claim_C7 (task : Task) (brange : BackupRange) (env : ShardEnv)
    (hsnap : env.snapshot = .ok ()) :
    (dispatch_backup_range brange task.end_ts task.end_ts env).setup =
      some { backup_ts := task.end_ts, isolation := .Si, fill_cache := false,
             lower := brange.start_key, upper := brange.end_key,
             batch_capacity := 1024 } ∧
    (∀ (batches : List (List Entry))
       (rest : List (Except TxnError (List Entry))),
      env.writer = .ok () → (∀ j, env.writeRes j = .ok ()) →
      env.scans = batches.map Except.ok ++ Except.ok [] :: rest →
      (∀ b ∈ batches, b ≠ []) →
      (dispatch_backup_range brange task.end_ts task.end_ts env).batches_written
        = batches ∧
      (dispatch_backup_range brange task.end_ts task.end_ts env).save_called
        = true) := by
  constructor
  · unfold dispatch_backup_range
    rw [hsnap]
    simp only []
    rcases env.writer with e | ⟨⟩
    · rfl
    · rcases scanWriteLoop env.writeRes 0 env.scans with ⟨W, _ | e⟩
      · rcases env.save with e | files <;> rfl
      · rfl
  · intro batches rest hwr hw hscans hne
    have hdrain := scanWriteLoop_drain env.writeRes hw rest batches hne 0
    constructor <;>
      (unfold dispatch_backup_range
       rw [hsnap, hwr]
       simp only []
       rw [hscans, hdrain]
       simp only []
       rcases env.save with e | files <;> rfl)

/-- The oracle of the C7 witness: two non-empty batches, then the empty
batch. -/
def drainEnv : ShardEnv :=
  { trivialEnv with
    scans := [Except.ok [{ key := [1], value := [2] }],
              Except.ok [{ key := [3], value := [4] }],
              Except.ok []] }

/-- Witness for claim C7: the scan of a whole-space shard at `end_ts = 5` is
configured at timestamp 5, snapshot isolation, `fill_cache = false`, capacity
1024, and writes exactly the two batches before the empty one, then saves. -/
theorem claim_C7_witness :
    (dispatch_backup_range wholeRange 5 5 drainEnv).setup =
      some { backup_ts := 5, isolation := .Si, fill_cache := false,
             lower := none, upper := none, batch_capacity := 1024 } ∧
    (dispatch_backup_range wholeRange 5 5 drainEnv).batches_written =
      [[{ key := [1], value := [2] }], [{ key := [3], value := [4] }]] ∧
    (dispatch_backup_range wholeRange 5 5 drainEnv).save_called = true := by
  have h := claim_C7 wholeTask wholeRange drainEnv rfl
  have h2 := h.2 [[{ key := [1], value := [2] }], [{ key := [3], value := [4] }]]
    [] rfl (fun _ => rfl) rfl (by decide)
  exact ⟨h.1, h2.1, h2.2⟩


/-! ## Claim C8: response ordering -/

/-- The start keys of the responses of a finished task, in emission order. -/
def startKeysOf (x : Except BackupPanic (List BackupRange × List BackupResponse)) :
    List Bytes :=
  match x with
  | .ok y => y.2.map (fun r => r.start_key)
  | .error _ => []

/-- Claim C8, counterexample: with two locally-led regions `(-inf,"1")` and
`("1",+inf)` and the valid completion schedule in which the second shard's
worker finishes first, the responses arrive with start keys `"1"` then `""` —
not ascending.  The response order is work-completion order, not ascending
`start_key_enc` order. -/
theorem claim_C8_cex :
    ([1, 0] : List Nat).Perm (List.range 2) ∧
    startKeysOf (handle_backup_task 1
      [mkLeaderRegion 1 [] [49], mkLeaderRegion 2 [49] []]
      { start_key := [], end_key := [], start_ts := 5, end_ts := 5 }
      (fun _ => trivialEnv) [1, 0]) = [[49], []] ∧
    ¬ List.Chain' (fun a b : Bytes => a ≤ b) [[49], []] :=
  ⟨by decide, by rfl, by
    intro h
    exact absurd (bytes_le_nil (List.chain'_cons.1 h).1) (by simp)⟩

/-- The response a result tuple turns into, total on tuples whose bounds
decode (the error branch is never taken for those). -/
def responseOf (task : Task)
    (x : BackupRange × Except BError (List File × Nat)) : BackupResponse :=
  match mkResponse task x.1 x.2 with
  | .ok r => r
  | .error _ => { start_key := [], end_key := [], files := [], error := none }

theorem mkResponse_eq_responseOf (task : Task)
    {x : BackupRange × Except BError (List File × Nat)} {r : BackupResponse}
    (h : mkResponse task x.1 x.2 = .ok r) :
    responseOf task x = r := by
  unfold responseOf
  rw [h]

/-- Claim C8 (amended): responses are emitted in work-completion order, one
per shard; the multiset of responses is independent of the completion
schedule — for every completed schedule it is a permutation of the responses
the enumeration-order schedule produces — but an ascending `start_key` order
is not guaranteed. -/
theorem claim_C8 (sid : Nat) (regs : List RegionInfo) (task : Task)
    (envs : Nat → ShardEnv) (sched : List Nat)
    (branges : List BackupRange) (resps : List BackupResponse)
    (hh : handle_backup_task sid regs task envs sched = .ok (branges, resps))
    (hs : sched.Perm (List.range branges.length)) :
    ∃ resps0, handle_backup_task sid regs task envs
        (List.range branges.length) = .ok (branges, resps0) ∧
      resps.Perm resps0 := by
  obtain ⟨hseek, hresp⟩ := handle_backup_task_ok_inv hh
  have hrange : (List.range branges.length) =
      (List.range (dispatchAll task envs 0 branges).length) := by
    rw [dispatchAll_length]
  have hordperm : (sched.filterMap
      (fun i => (dispatchAll task envs 0 branges)[i]?)).Perm
      (dispatchAll task envs 0 branges) := by
    have h1 := List.Perm.filterMap
      (fun i => (dispatchAll task envs 0 branges)[i]?) hs
    rw [hrange, filterMap_getElem_range] at h1
    exact h1
  have hall : ∀ x ∈ sched.filterMap
      (fun i => (dispatchAll task envs 0 branges)[i]?),
      mkResponse task x.1 x.2 = .ok (responseOf task x) := by
    intro x hx
    obtain ⟨r, hr⟩ := responsesOf_ok_all task hresp x hx
    rw [hr, mkResponse_eq_responseOf task hr]
  have hall_res : ∀ x ∈ dispatchAll task envs 0 branges,
      mkResponse task x.1 x.2 = .ok (responseOf task x) :=
    fun x hx => hall x (hordperm.mem_iff.2 hx)
  have hresps_eq : resps = (sched.filterMap
      (fun i => (dispatchAll task envs 0 branges)[i]?)).map
      (responseOf task) := by
    have h2 := responsesOf_eq_map task (responseOf task) hall
    rw [hresp] at h2
    exact Except.ok.inj h2
  refine ⟨(dispatchAll task envs 0 branges).map (responseOf task), ?_, ?_⟩
  · unfold handle_backup_task
    simp only []
    rw [hseek]
    simp only []
    rw [hrange, filterMap_getElem_range,
      responsesOf_eq_map task (responseOf task) hall_res]
    rfl
  · rw [hresps_eq]
    exact hordperm.map (responseOf task)

/-- Witness for claim C8: the counterexample schedule `[1, 0]` produces a
permutation of the enumeration-order responses. -/
theorem claim_C8_witness :
    ∃ resps0, handle_backup_task 1
        [mkLeaderRegion 1 [] [49], mkLeaderRegion 2 [49] []]
        { start_key := [], end_key := [], start_ts := 5, end_ts := 5 }
        (fun _ => trivialEnv) (List.range 2) = .ok
        ([{ start_key := none, end_key := some (encodeBytes [49]),
            region := (mkLeaderRegion 1 [] [49]).region,
            leader := { store_id := 1, id := 1 } },
          { start_key := some (encodeBytes [49]), end_key := none,
            region := (mkLeaderRegion 2 [49] []).region,
            leader := { store_id := 1, id := 1 } }], resps0) ∧
      List.Perm
        [({ start_key := [49], end_key := [], files := [], error := none } :
            BackupResponse),
         { start_key := [], end_key := [49], files := [], error := none }]
        resps0 :=
  claim_C8 1 [mkLeaderRegion 1 [] [49], mkLeaderRegion 2 [49] []]
    { start_key := [], end_key := [], start_ts := 5, end_ts := 5 }
    (fun _ => trivialEnv) [1, 0]
    [{ start_key := none, end_key := some (encodeBytes [49]),
       region := (mkLeaderRegion 1 [] [49]).region,
       leader := { store_id := 1, id := 1 } },
     { start_key := some (encodeBytes [49]), end_key := none,
       region := (mkLeaderRegion 2 [49] []).region,
       leader := { store_id := 1, id := 1 } }]
    [{ start_key := [49], end_key := [], files := [], error := none },
     { start_key := [], end_key := [49], files := [], error := none }]
    (by rfl) (by decide)


/-! ## Claim C9: the find_peer unwrap -/

theorem seekLoop_peers (sid : Nat) (S E : Option Bytes) :
    ∀ rs : List RegionInfo,
      (∀ i ∈ rs, i.role = StateRole.Leader →
        (find_peer i.region sid).isSome = true) →
      seekLoop sid S E rs ≠ .error .findPeerNone ∧
      (∀ l, seekLoop sid S E rs = .ok l →
        ∀ b ∈ l, b.leader ∈ b.region.peers ∧ b.leader.store_id = sid) := by
  intro rs
  induction rs with
  | nil =>
    intro _
    refine ⟨by simp [seekLoop], fun l hl b hb => ?_⟩
    rw [show seekLoop sid S E [] = .ok [] from rfl] at hl
    cases hl
    exact absurd hb (List.not_mem_nil b)
  | cons info rest ih =>
    intro hpeers
    obtain ⟨ihne, ihok⟩ :=
      ih (fun i hi => hpeers i (List.mem_cons_of_mem _ hi))
    by_cases hbrk : reachedEnd E info.region = true
    · refine ⟨by simp [seekLoop, hbrk], fun l hl b hb => ?_⟩
      rw [show seekLoop sid S E (info :: rest) = .ok [] by
        simp [seekLoop, hbrk]] at hl
      cases hl
      exact absurd hb (List.not_mem_nil b)
    · by_cases hrole : info.role = StateRole.Leader
      · by_cases hassert : clipStart S info.region = clipEnd E info.region ∧
            (clipEnd E info.region).isSome = true
        · have hred : seekLoop sid S E (info :: rest) =
              .error .assertEmptyRange := by
            simp [seekLoop, hbrk, hrole, hassert]
          rw [hred]
          exact ⟨by simp, fun l hl => by cases hl⟩
        · obtain ⟨p, hp⟩ := Option.isSome_iff_exists.1
            (hpeers info (List.mem_cons_self _ _) hrole)
          have hred : seekLoop sid S E (info :: rest) =
              match seekLoop sid S E rest with
              | .error q => .error q
              | .ok l =>
                .ok ({ start_key := clipStart S info.region,
                       end_key := clipEnd E info.region,
                       region := info.region, leader := p } :: l) := by
            simp [seekLoop, hbrk, hrole, hassert, hp]
          rw [hred]
          rcases hrest : seekLoop sid S E rest with q | l
          · exact ⟨by simpa [hrest] using ihne, fun l' hl' => by cases hl'⟩
          · refine ⟨by simp, fun l' hl' b hb => ?_⟩
            cases hl'
            rcases List.mem_cons.1 hb with rfl | hbl
            · refine ⟨List.mem_of_find?_eq_some hp, ?_⟩
              have := List.find?_some hp
              simpa using this
            · exact ihok l hrest b hbl
      · have hred : seekLoop sid S E (info :: rest) = seekLoop sid S E rest := by
          simp [seekLoop, hbrk, hrole]
        rw [hred]
        exact ⟨ihne, ihok⟩

/-- A leader region covering the whole key space that carries no peer at
all: the precondition of the `find_peer` unwrap fails on it. -/
def noPeerRegion : RegionInfo :=
  ⟨⟨1, ⟨1, 1⟩, [], [], []⟩, StateRole.Leader⟩

/-- Claim C9: when every region the registry reports as locally led carries a
peer whose store id is the endpoint's, the `find_peer(...).unwrap()` of
`seek_backup_range` never panics and every emitted `BackupRange`'s leader is a
peer of its region located on this store; without that precondition the
enumeration panics — as on a leader region with no peers at all — rather than
skipping or erroring. -/
theorem claim_C9 :
    (∀ (sid : Nat) (regs : List RegionInfo) (S E : Option Bytes),
      (∀ i ∈ regs, i.role = StateRole.Leader →
        ∃ p ∈ i.region.peers, p.store_id = sid) →
      seek_backup_range sid regs S E ≠ .error .findPeerNone ∧
      (∀ l, seek_backup_range sid regs S E = .ok l →
        ∀ b ∈ l, b.leader ∈ b.region.peers ∧ b.leader.store_id = sid)) ∧
    seek_backup_range 1 [noPeerRegion] none none = .error .findPeerNone := by
  constructor
  · intro sid regs S E hpeers
    have hpeers' : ∀ i ∈ seek_region (S.elim ([] : Bytes) id) regs,
        i.role = StateRole.Leader → (find_peer i.region sid).isSome = true := by
      intro i hi hrole
      obtain ⟨p, hpm, hpsid⟩ := hpeers i
        (((List.dropWhile_suffix _).sublist).mem hi) hrole
      unfold find_peer
      rw [List.find?_isSome]
      exact ⟨p, hpm, by simpa using hpsid⟩
    exact seekLoop_peers sid S E (seek_region (S.elim ([] : Bytes) id) regs)
      hpeers'
  · rfl

/-- Witness for claim C9: on the scenario registry (every region led with a
peer on store 1), the unbounded enumeration does not hit the `find_peer`
panic. -/
theorem claim_C9_witness :
    seek_backup_range 1 scenarioRegistry none none ≠ .error .findPeerNone :=
  (claim_C9.1 1 scenarioRegistry none none (by decide)).1

/-! ## Claim C10: raw keys round-trip through the key encoding -/

theorem clipStart_mem (S : Option Bytes) (r : Region) :
    clipStart S r = S ∨ clipStart S r = (key_from_region r).1 := by
  rcases S with _ | s
  · exact Or.inr rfl
  · by_cases hlt : s < r.start_key
    · exact Or.inr (by simp [clipStart, hlt])
    · exact Or.inl (by simp [clipStart, hlt])

theorem clipEnd_mem (E : Option Bytes) (r : Region) :
    clipEnd E r = E ∨ clipEnd E r = (key_from_region r).2 := by
  by_cases hre : r.end_key = []
  · exact Or.inl (by simp [clipEnd, hre])
  · rcases E with _ | e
    · exact Or.inr (by simp [clipEnd, hre])
    · by_cases hlt : e < r.end_key
      · exact Or.inl (by simp [clipEnd, hre, hlt])
      · exact Or.inr (by simp [clipEnd, hre, hlt])

theorem seekLoop_bounds (sid : Nat) (S E : Option Bytes) :
    ∀ (rs : List RegionInfo) (l : List BackupRange),
      seekLoop sid S E rs = .ok l → ∀ b ∈ l,
      (b.start_key = S ∨ ∃ i ∈ rs, b.start_key = (key_from_region i.region).1) ∧
      (b.end_key = E ∨ ∃ i ∈ rs, b.end_key = (key_from_region i.region).2) := by
  intro rs
  induction rs with
  | nil =>
    intro l hl b hb
    rw [show seekLoop sid S E [] = .ok [] from rfl] at hl
    cases hl
    exact absurd hb (List.not_mem_nil b)
  | cons info rest ih =>
    intro l hl b hb
    unfold seekLoop at hl
    by_cases hbrk : reachedEnd E info.region = true
    · rw [if_pos hbrk] at hl
      cases hl
      exact absurd hb (List.not_mem_nil b)
    · rw [if_neg hbrk] at hl
      by_cases hrole : info.role = StateRole.Leader
      · rw [if_pos hrole] at hl
        simp only [] at hl
        by_cases hassert : clipStart S info.region = clipEnd E info.region ∧
            (clipEnd E info.region).isSome = true
        · rw [if_pos hassert] at hl
          cases hl
        · rw [if_neg hassert] at hl
          rcases hp : find_peer info.region sid with _ | p <;> rw [hp] at hl
          · cases hl
          · rcases hrest : seekLoop sid S E rest with q | l0 <;>
              rw [hrest] at hl
            · cases hl
            · cases hl
              rcases List.mem_cons.1 hb with rfl | hbl
              · constructor
                · rcases clipStart_mem S info.region with h | h
                  · exact Or.inl h
                  · exact Or.inr ⟨info, List.mem_cons_self _ _, h⟩
                · rcases clipEnd_mem E info.region with h | h
                  · exact Or.inl h
                  · exact Or.inr ⟨info, List.mem_cons_self _ _, h⟩
              · obtain ⟨h1, h2⟩ := ih l0 hrest b hbl
                refine ⟨?_, ?_⟩
                · rcases h1 with h1 | ⟨i, hi, hieq⟩
                  · exact Or.inl h1
                  · exact Or.inr ⟨i, List.mem_cons_of_mem _ hi, hieq⟩
                · rcases h2 with h2 | ⟨i, hi, hieq⟩
                  · exact Or.inl h2
                  · exact Or.inr ⟨i, List.mem_cons_of_mem _ hi, hieq⟩
      · rw [if_neg hrole] at hl
        obtain ⟨h1, h2⟩ := ih l hl b hb
        refine ⟨?_, ?_⟩
        · rcases h1 with h1 | ⟨i, hi, hieq⟩
          · exact Or.inl h1
          · exact Or.inr ⟨i, List.mem_cons_of_mem _ hi, hieq⟩
        · rcases h2 with h2 | ⟨i, hi, hieq⟩
          · exact Or.inl h2
          · exact Or.inr ⟨i, List.mem_cons_of_mem _ hi, hieq⟩

theorem mkResponse_keys {task : Task} {brange : BackupRange}
    {res : Except BError (List File × Nat)} {resp : BackupResponse}
    (h : mkResponse task brange res = .ok resp) :
    rawOfBound brange.start_key = some resp.start_key ∧
    rawOfBound brange.end_key = some resp.end_key := by
  unfold mkResponse at h
  rcases hsk : rawOfBound brange.start_key with _ | sk <;> rw [hsk] at h
  · cases h
  rcases hek : rawOfBound brange.end_key with _ | ek <;> rw [hek] at h
  · cases h
  rcases res with e | ⟨files, stat⟩ <;> simp only [] at h <;> cases h <;>
    exact ⟨rfl, rfl⟩

/-- Claim C10: raw request keys round-trip through the key encoding.
`into_raw` inverts `from_raw`; an absent bound is reported as the empty byte
string; every bound emitted by `seek_backup_range` on request bounds built by
`from_raw` against a registry whose region keys are decodable is itself
decodable, so the `into_raw().unwrap()` conversions of the response loop
never panic; and the response loop reports a request-derived bound as exactly
the original raw bytes. -/
theorem claim_C10 :
    (∀ k : Bytes, decodeBytes (encodeBytes k) = some k) ∧
    rawOfBound none = some [] ∧
    (∀ (sid : Nat) (regs : List RegionInfo) (S E : Option Bytes)
       (l : List BackupRange),
      (∀ i ∈ regs,
        (i.region.start_key = [] ∨
          (decodeBytes i.region.start_key).isSome = true) ∧
        (i.region.end_key = [] ∨
          (decodeBytes i.region.end_key).isSome = true)) →
      seek_backup_range sid regs (S.map encodeBytes) (E.map encodeBytes) =
        .ok l →
      ∀ b ∈ l, (rawOfBound b.start_key).isSome = true ∧
        (rawOfBound b.end_key).isSome = true) ∧
    (∀ (task : Task) (brange : BackupRange)
       (res : Except BError (List File × Nat)) (resp : BackupResponse)
       (w : Bytes),
      mkResponse task brange res = .ok resp →
      (brange.start_key = some (encodeBytes w) → resp.start_key = w) ∧
      (brange.start_key = none → resp.start_key = []) ∧
      (brange.end_key = some (encodeBytes w) → resp.end_key = w) ∧
      (brange.end_key = none → resp.end_key = [])) := by
  refine ⟨decode_encode, rfl, ?_, ?_⟩
  · intro sid regs S E l hregs hseek b hb
    have hbounds := seekLoop_bounds sid (S.map encodeBytes) (E.map encodeBytes)
      (seek_region ((S.map encodeBytes).elim ([] : Bytes) id) regs) l hseek b hb
    have hreg : ∀ i ∈ seek_region ((S.map encodeBytes).elim ([] : Bytes) id) regs,
        (i.region.start_key = [] ∨
          (decodeBytes i.region.start_key).isSome = true) ∧
        (i.region.end_key = [] ∨
          (decodeBytes i.region.end_key).isSome = true) :=
      fun i hi => hregs i (((List.dropWhile_suffix _).sublist).mem hi)
    constructor
    · rcases hbounds.1 with hS | ⟨i, hi, hkey⟩
      · rw [hS]
        rcases S with _ | s
        · rfl
        · simp [rawOfBound, decode_encode]
      · rw [hkey]
        unfold key_from_region
        by_cases hvs : i.region.start_key = []
        · rw [if_pos hvs]
          rfl
        · rw [if_neg hvs]
          have := ((hreg i hi).1).resolve_left hvs
          simpa [rawOfBound] using this
    · rcases hbounds.2 with hE | ⟨i, hi, hkey⟩
      · rw [hE]
        rcases E with _ | e
        · rfl
        · simp [rawOfBound, decode_encode]
      · rw [hkey]
        unfold key_from_region
        by_cases hve : i.region.end_key = []
        · rw [if_pos hve]
          rfl
        · rw [if_neg hve]
          have := ((hreg i hi).2).resolve_left hve
          simpa [rawOfBound] using this
  · intro task brange res resp w hmk
    obtain ⟨hsk, hek⟩ := mkResponse_keys hmk
    refine ⟨?_, ?_, ?_, ?_⟩
    · intro hb
      rw [hb] at hsk
      simp only [rawOfBound, decode_encode] at hsk
      exact (Option.some.inj hsk).symm
    · intro hb
      rw [hb] at hsk
      exact (Option.some.inj hsk).symm
    · intro hb
      rw [hb] at hek
      simp only [rawOfBound, decode_encode] at hek
      exact (Option.some.inj hek).symm
    · intro hb
      rw [hb] at hek
      exact (Option.some.inj hek).symm

/-- Witness for claim C10: on the scenario-7 request `("8","91")` the first
emitted shard's bounds both decode. -/
theorem claim_C10_witness :
    (rawOfBound (some (encodeBytes [56]))).isSome = true ∧
    (rawOfBound (some (encodeBytes [57]))).isSome = true :=
  claim_C10.2.2.1 1 scenarioRegistry (some [56]) (some [57, 49])
    [{ start_key := some (encodeBytes [56]),
       end_key := some (encodeBytes [57]),
       region := (mkLeaderRegion 4 [55] [57]).region,
       leader := { store_id := 1, id := 1 } },
     { start_key := some (encodeBytes [57]),
       end_key := some (encodeBytes [57, 49]),
       region := (mkLeaderRegion 5 [57] []).region,
       leader := { store_id := 1, id := 1 } }]
    (by decide) (by rfl)
    { start_key := some (encodeBytes [56]),
      end_key := some (encodeBytes [57]),
      region := (mkLeaderRegion 4 [55] [57]).region,
      leader := { store_id := 1, id := 1 } }
    (List.mem_cons_self _ _)

end Backup
